import Mathlib

/-!
Verification of the coc-explorer tree-view engine specification against its
TypeScript sources, via a shallow embedding in Lean 4.

The embedding covers:
* the clipboard state and the `copyFile` / `cutFile` / `pasteFile` actions
  (both the legacy `file-source.ts` version and the action-module version),
* the `guardTargetPath` conflict guard and the `addFile` create action,
* the `debounce` primitive from `util/throttle-debounce.ts`,
* the cursor locator from `view/viewExplorer.ts`,
* `sortFiles`, `listFiles`, `loadItems` and the `draw` pass of
  `file-source.ts`.

Conventions: JS `Set` objects are modelled as insertion-ordered duplicate-free
lists; filesystem side effects are modelled as explicit operation logs;
functions that may `throw` return `Except String`; `onError`-style swallowed
rejections are modelled as diagnostic logs.
-/

namespace CocExplorer

/-! ## Path helpers

`pathLib.join` and `pathLib.basename`, modelled for already-normalized
POSIX-style inputs (no trailing separators, `/`-separated): `join` concatenates
with a single separator and `basename` takes the last `/`-separated segment. -/

def pathJoin (dir base : String) : String := dir ++ "/" ++ base

/-- Split a character sequence at `/` separators. -/
def segmentsAux : List Char → List Char → List (List Char)
  | [], acc => [acc.reverse]
  | c :: cs, acc =>
      if c = '/' then acc.reverse :: segmentsAux cs []
      else segmentsAux cs (c :: acc)

def pathSegments (p : String) : List String :=
  (segmentsAux p.data []).map (fun l => { data := l })

def pathBasename (p : String) : String := ((pathSegments p).getLast?).getD p

def pathDirname (p : String) : String :=
  String.intercalate "/" ((pathSegments p).dropLast)

/-! ## JS `Set` model

`copiedNodes` / `cutNodes` (and the legacy `copyItems` / `cutItems`) are JS
`Set`s of node references.  A JS `Set` is insertion-ordered and duplicate-free:
`add` appends when absent, `delete` removes, `has` tests membership. -/

def setAdd {β : Type} [DecidableEq β] (s : List β) (n : β) : List β :=
  if n ∈ s then s else s ++ [n]

def setDelete {β : Type} [DecidableEq β] (s : List β) (n : β) : List β :=
  s.filter (fun x => x ≠ n)

/-- A file node as used by the clipboard actions: identity plus `fullpath`. -/
structure FileNode where
  uid : Nat
  fullpath : String
deriving DecidableEq, Repr

/-- Clipboard state of a `FileSource`: `copiedNodes` and `cutNodes`. -/
structure ClipboardState where
  copiedNodes : List FileNode
  cutNodes : List FileNode
deriving DecidableEq, Repr

/-- The `type` argument of `copyFile` / `cutFile` (`CopyOrCutFileType`). -/
inductive CopyOrCutFileType where
  | toggle
  | append
  | replace
deriving DecidableEq, Repr

/-- The `type` argument of `pasteFile` (`PasteFileType`). -/
inductive PasteFileType where
  | keepCopy
  | clear
deriving DecidableEq, Repr

/-- The `copyFile` action of the action module:
`const type = (args[0] ?? 'toggle')`; `replace` clears both sets then adds
every selected node to `copiedNodes`; `toggle` flips membership of each
selected node in `copiedNodes`; `append` adds each selected node to
`copiedNodes`.  `cutNodes` is only touched by `replace`. -/
def copyFile (st : ClipboardState) (nodes : List FileNode)
    (arg : Option CopyOrCutFileType) : ClipboardState :=
  let type := arg.getD CopyOrCutFileType.toggle
  match type with
  | CopyOrCutFileType.replace =>
      { copiedNodes := nodes.foldl setAdd [], cutNodes := [] }
  | CopyOrCutFileType.toggle =>
      { st with
        copiedNodes :=
          nodes.foldl
            (fun s n => if n ∈ s then setDelete s n else setAdd s n)
            st.copiedNodes }
  | CopyOrCutFileType.append =>
      { st with copiedNodes := nodes.foldl setAdd st.copiedNodes }

/-- The `cutFile` action of the action module: identical to `copyFile` with
the roles of `copiedNodes` and `cutNodes` exchanged. -/
def cutFile (st : ClipboardState) (nodes : List FileNode)
    (arg : Option CopyOrCutFileType) : ClipboardState :=
  let type := arg.getD CopyOrCutFileType.toggle
  match type with
  | CopyOrCutFileType.replace =>
      { copiedNodes := [], cutNodes := nodes.foldl setAdd [] }
  | CopyOrCutFileType.toggle =>
      { st with
        cutNodes :=
          nodes.foldl
            (fun s n => if n ∈ s then setDelete s n else setAdd s n)
            st.cutNodes }
  | CopyOrCutFileType.append =>
      { st with cutNodes := nodes.foldl setAdd st.cutNodes }

/-! ## Filesystem mutations as an explicit log -/

/-- One filesystem mutation performed by an action. -/
inductive FsOp where
  | copy (source target : String)
  | rename (source target : String)
  | mkdir (path : String)
  | touch (path : String)
deriving DecidableEq, Repr

/-- Outcome of the action-module `pasteFile`. -/
structure PasteOutcome where
  message : Option String
  ops : List FsOp
  copiedNodes : List FileNode
  cutNodes : List FileNode
deriving DecidableEq, Repr

/-- The `pasteFile` action of the action module
(`const type = (args[0] ?? 'keepCopy')`): error message when both sets are
empty; otherwise every copied node is copied to the target directory and every
cut node is renamed into it (the `overwritePrompt` collaborator is modelled on
its conflict-free path, where the apply function runs for every pair);
`cutNodes` is cleared whenever it was non-empty, `copiedNodes` is cleared only
when it was non-empty and `type` is `clear`. -/
def pasteFile (st : ClipboardState) (targetDir : String)
    (arg : Option PasteFileType) : PasteOutcome :=
  let type := arg.getD PasteFileType.keepCopy
  if st.copiedNodes.length = 0 ∧ st.cutNodes.length = 0 then
    { message := some "Copied files or cut files is empty"
      ops := []
      copiedNodes := st.copiedNodes
      cutNodes := st.cutNodes }
  else
    let copyOps :=
      if st.copiedNodes.length > 0 then
        st.copiedNodes.map
          (fun n => FsOp.copy n.fullpath (pathJoin targetDir (pathBasename n.fullpath)))
      else []
    let copied' :=
      if st.copiedNodes.length > 0 ∧ type = PasteFileType.clear then []
      else st.copiedNodes
    let cutOps :=
      if st.cutNodes.length > 0 then
        st.cutNodes.map
          (fun n => FsOp.rename n.fullpath (pathJoin targetDir (pathBasename n.fullpath)))
      else []
    { message := none
      ops := copyOps ++ cutOps
      copiedNodes := copied'
      cutNodes := [] }

end CocExplorer

namespace CocExplorer

/-! ## Legacy `file-source.ts`: conflict guard, paste, addFile

The filesystem is modelled extensionally as the set of existing paths,
`fs : String → Bool` (`fsExists`). -/

/-- Model of `guardTargetPath`: throws when the target path already exists. -/
def guardTargetPath (fs : String → Bool) (path : String) : Except String Unit :=
  if fs path then
    Except.error ("Target file or directory " ++ path ++ " already exists")
  else
    Except.ok ()

/-- The item shape used by the legacy paste / add actions: `fullpath` plus
`name`, `directory`, an optional parent path, and whether the item is an
expanded directory is looked up in `expandStore`. -/
structure FileItemRef where
  fullpath : String
  name : String
  directory : Bool
  parentPath : Option String
deriving DecidableEq, Repr

/-- Model of `getPutTargetDir` of `file-source.ts`: the root when there is no item;
the item itself when it is an expanded directory; else its parent's path;
else the root. -/
def getPutTargetDir (es : String → Bool) (root : String) :
    Option FileItemRef → String
  | none => root
  | some it =>
      if it.directory && es it.fullpath then it.fullpath
      else
        match it.parentPath with
        | some p => p
        | none => root

/-- Model of `checkSameFilename` of the legacy `pasteFile`: runs `guardTargetPath` for
every clipboard item, but the `Promise.all` is neither returned nor awaited —
its rejection is routed to `.catch(onError)`.  The value observed by the
caller is therefore `undefined`; the only effect is the diagnostic carried to
`onError`, modelled here as the first conflict error (a `Promise.all`
rejection carries the first rejecting member). -/
def checkSameFilename (fs : String → Bool) (targetDir : String)
    (items : List FileItemRef) : Option String :=
  items.findSome? (fun it =>
    match guardTargetPath fs (pathJoin targetDir it.name) with
    | Except.error e => some e
    | Except.ok _ => none)

/-- Outcome of the legacy `pasteFile`. -/
structure LegacyPasteOutcome where
  ops : List FsOp
  errorLog : List String
  copyItems : List FileItemRef
  cutItems : List FileItemRef
deriving DecidableEq, Repr

/-- The legacy `pasteFile` action of `file-source.ts`: because
`checkSameFilename` only logs (its promise is dropped), the copy / rename
mutations run unconditionally for every clipboard item, after which the used
set is cleared. -/
def legacyPasteFile (fs : String → Bool) (copyItems cutItems : List FileItemRef)
    (targetDir : String) : LegacyPasteOutcome :=
  if copyItems.length > 0 then
    { ops := copyItems.map (fun it => FsOp.copy it.fullpath (pathJoin targetDir it.name))
      errorLog := (checkSameFilename fs targetDir copyItems).toList
      copyItems := []
      cutItems := cutItems }
  else if cutItems.length > 0 then
    { ops := cutItems.map (fun it => FsOp.rename it.fullpath (pathJoin targetDir it.name))
      errorLog := (checkSameFilename fs targetDir cutItems).toList
      copyItems := copyItems
      cutItems := [] }
  else
    { ops := [], errorLog := [], copyItems := copyItems, cutItems := cutItems }

/-- The legacy `addFile` action of `file-source.ts`: empty input aborts
silently; otherwise the target path is guarded (`await guardTargetPath`), and
only if the guard passes are `fsMkdir(dirname, recursive)` and
`fsTouch(target)` performed.  A thrown guard error propagates out of the
action, so the returned `Except` carries either the error or the mutation
log. -/
def addFile (fs : String → Bool) (es : String → Bool) (root : String)
    (item : Option FileItemRef) (filename : String) :
    Except String (List FsOp) := do
  if filename.length = 0 then
    return []
  let targetPath := pathJoin (getPutTargetDir es root item) filename
  let _ ← guardTargetPath fs targetPath
  return [FsOp.mkdir (pathDirname targetPath), FsOp.touch targetPath]

/-! ## The action-module `addFile` / `addDirectory` and `overwritePrompt`

The action module routes create operations through the conflict-resolution
collaborator instead of `guardTargetPath`. -/

/-- The user's resolution for one conflicting pair of an overwrite prompt. -/
inductive OverwriteChoice where
  | confirm
  | skip
  | abortAll
deriving DecidableEq, Repr

/-- Modelled from the spec: the `overwritePrompt` conflict-resolution
collaborator (`overwritePrompt(operationName, pairs, applyFn)` of the util
module, whose implementation is not under `src/`; spec sections 4.4 and 6).
Each planned `(source?, target)` pair whose target does not yet exist has the
apply function run directly; a pair whose target already exists is escalated
to the user, who may confirm (apply anyway, overwriting), skip (leave this
pair unapplied), or abort the whole batch (this and all remaining pairs
unapplied).  The user's per-target resolution is the parameter `dec`; the
function returns the pairs the apply function actually ran on, in order. -/
def overwritePrompt (fs : String → Bool) (dec : String → OverwriteChoice) :
    List (Option String × String) → List (Option String × String)
  | [] => []
  | (s, t) :: rest =>
      if fs t then
        match dec t with
        | OverwriteChoice.confirm => (s, t) :: overwritePrompt fs dec rest
        | OverwriteChoice.skip => overwritePrompt fs dec rest
        | OverwriteChoice.abortAll => []
      else
        (s, t) :: overwritePrompt fs dec rest

/-- Whether the filename's last character is `/` or `\`
(`['/', '\\'].includes(filename[filename.length - 1])`). -/
def endsWithPathSep (s : String) : Bool :=
  match s.data.getLast? with
  | some c => c == '/' || c == '\\'
  | none => false

/-- The `replace(/(\/|\\)*$/g, '')` of the action-module `addDirectory`:
strip every trailing path separator. -/
def stripTrailingSeps (s : String) : String :=
  { data := (s.data.reverse.dropWhile (fun c => c == '/' || c == '\\')).reverse }

/-- The `addDirectory` action of the action module: strip trailing
separators from the (already trimmed) input; an empty result aborts;
otherwise the single `(undefined, targetPath)` pair is routed through
`overwritePrompt` with `fsMkdirp` as the apply function.  Returns the
mutations actually performed. -/
def addDirectoryAction (fs : String → Bool) (dec : String → OverwriteChoice)
    (putTargetDir : String) (directoryName : String) : List FsOp :=
  let name := stripTrailingSeps directoryName
  if name.length = 0 then []
  else
    (overwritePrompt fs dec [(none, pathJoin putTargetDir name)]).map
      (fun pr => FsOp.mkdir pr.2)

/-- The `addFile` action of the action module: an empty (already trimmed)
filename aborts; a filename ending in a path separator delegates to
`addDirectory`; otherwise the single `(undefined, targetPath)` pair is routed
through `overwritePrompt` with `fsTouch` as the apply function — there is no
outright conflict rejection.  Returns the mutations actually performed. -/
def addFileAction (fs : String → Bool) (dec : String → OverwriteChoice)
    (putTargetDir : String) (filename : String) : List FsOp :=
  if filename.length = 0 then []
  else if endsWithPathSep filename then
    addDirectoryAction fs dec putTargetDir filename
  else
    (overwritePrompt fs dec [(none, pathJoin putTargetDir filename)]).map
      (fun pr => FsOp.touch pr.2)

end CocExplorer

namespace CocExplorer

/-! ## `debounce` from `util/throttle-debounce.ts`

The wrapper keeps a shared `timer` (the pending `setTimeout`) and
`lastResolve` (the resolver of the most recent caller's promise).  A new call
that arrives while a timeout is still pending clears that timeout and resolves
the previous caller's promise with `undefined` immediately; it then schedules
its own timeout `delay` later, whose firing runs `fn` and resolves with its
result (or rejects only if `fn` itself throws — never for superseded calls).

We embed this as a deterministic interpreter over a timeline of call instants
(strictly increasing, in milliseconds).  The pending state between calls is
the deadline of the most recent call's timeout; a call at time `t` supersedes
the pending one exactly when `t` is before that deadline (otherwise the
timeout has already fired and `clearTimeout` / re-resolving are no-ops). -/

/-- What happens to one call's promise. -/
inductive DebounceOutcome where
  /-- The call was superseded by a later call at instant `t`: its promise is
  resolved with `undefined` (a no-op value) at `t`.  Not a rejection. -/
  | superseded (t : Nat)
  /-- The call's timeout fired: `fn` ran and the promise resolved at `t`. -/
  | executed (t : Nat)
deriving DecidableEq, Repr

/-- Interpreter core: `deadline` is the pending timeout instant of the most
recent (not yet settled) call; the remaining call instants follow.  Produces
the outcome of the pending call followed by those of the later calls. -/
def debounceProcess (delay : Nat) : Nat → List Nat → List DebounceOutcome
  | deadline, [] => [DebounceOutcome.executed deadline]
  | deadline, t :: ts =>
      (if t < deadline then DebounceOutcome.superseded t
       else DebounceOutcome.executed deadline) :: debounceProcess delay (t + delay) ts

/-- Outcomes, in call order, of invoking a `debounce delay fn` wrapper at the
given strictly increasing instants. -/
def debounceRun (delay : Nat) : List Nat → List DebounceOutcome
  | [] => []
  | t :: ts => debounceProcess delay (t + delay) ts

end CocExplorer

namespace CocExplorer

/-! ## The locator (`view/viewExplorer.ts`) -/

/-- The view data of one source: its assigned half-open line range inside the
shared surface, and its flattened node sequence. -/
structure SourceView (α : Type) where
  startLineIndex : Nat
  endLineIndex : Nat
  flattenedNodes : List α
deriving DecidableEq, Repr

/-- Model of `refreshLineIndex`: the 1-indexed cursor row becomes the 0-indexed
`currentLineIndex`. -/
def refreshLineIndex (cursorRow : Nat) : Nat := cursorRow - 1

/-- Model of `currentSourceIndex`: `findIndex` of the source whose
`[startLineIndex, endLineIndex)` range contains the line (JS `findIndex`
returns `-1` when no source matches, modelled as `none`). -/
def currentSourceIndex {α : Type} (sources : List (SourceView α))
    (lineIndex : Nat) : Option Nat :=
  sources.findIdx? (fun s =>
    decide (s.startLineIndex ≤ lineIndex) && decide (lineIndex < s.endLineIndex))

/-- Model of `currentNode`: look up the current source (indexing `sources` with `-1`
yields `undefined`, modelled as `none`), then index its flattened sequence at
`currentLineIndex - startLineIndex` (out of bounds yields `undefined`). -/
def currentNode {α : Type} (sources : List (SourceView α))
    (cursorRow : Nat) : Option α :=
  match currentSourceIndex sources (refreshLineIndex cursorRow) with
  | none => none
  | some i =>
      match sources.get? i with
      | none => none
      | some s =>
          s.flattenedNodes.get? (refreshLineIndex cursorRow - s.startLineIndex)

end CocExplorer

namespace CocExplorer

/-! ## `FileItem`, `sortFiles`, `listFiles`, `loadItems` (`file-source.ts`) -/

/-- The `FileItem` tree node of `file-source.ts`.  `children` is present only
once loaded (`undefined` ≠ empty list).  The derived draw-pass flags
`isFirstInLevel` / `isLastInLevel` are modelled as outputs of the draw pass
(`Rendered` below) rather than as mutable fields. -/
inductive FileItem where
  | mk (name fullpath : String) (level : Nat)
      (directory readonly executable readable writable hidden : Bool)
      (children : Option (List FileItem))
deriving Repr

def FileItem.name : FileItem → String
  | FileItem.mk n _ _ _ _ _ _ _ _ _ => n

def FileItem.fullpath : FileItem → String
  | FileItem.mk _ fp _ _ _ _ _ _ _ _ => fp

def FileItem.level : FileItem → Nat
  | FileItem.mk _ _ lv _ _ _ _ _ _ _ => lv

def FileItem.directory : FileItem → Bool
  | FileItem.mk _ _ _ d _ _ _ _ _ _ => d

def FileItem.readonly : FileItem → Bool
  | FileItem.mk _ _ _ _ ro _ _ _ _ _ => ro

def FileItem.hidden : FileItem → Bool
  | FileItem.mk _ _ _ _ _ _ _ _ h _ => h

def FileItem.children : FileItem → Option (List FileItem)
  | FileItem.mk _ _ _ _ _ _ _ _ _ ch => ch

/-- The comparator passed to `files.sort`: a directory sorts before a
non-directory (`-1` / `1`); otherwise `a.name.localeCompare(b.name)`.
`localeCompare` is an external, locale-dependent case-aware comparison; it is
taken as a parameter `lc` returning a signed integer. -/
def sortFilesCmp (lc : String → String → Int) (a b : FileItem) : Int :=
  if a.directory && !b.directory then -1
  else if b.directory && !a.directory then 1
  else lc a.name b.name

/-- Whether `a` may precede `b` under the `sortFiles` comparator. -/
def fileLE (lc : String → String → Int) (a b : FileItem) : Bool :=
  decide (sortFilesCmp lc a b ≤ 0)

/-- Model of `sortFiles`: `files.sort(comparator)`.  `Array.prototype.sort` is a stable
comparison sort (ES2019), embedded as a stable merge sort ordered by
"comparator ≤ 0". -/
def sortFiles (lc : String → String → Int) (files : List FileItem) :
    List FileItem :=
  files.mergeSort (fileLE lc)

/-- The per-entry metadata retrieved while listing: `fsStat` classification
plus the three `fsAccess` permission probes. -/
structure FsMeta where
  directory : Bool
  executable : Bool
  readable : Bool
  writable : Bool
deriving DecidableEq, Repr

/-- One raw directory entry as the filesystem collaborator presents it:
its name, its metadata retrieval outcome (`fsStat` / `fsAccess` may throw),
and the raw entries of its own directory listing (consulted only when the
entry is an expanded directory). -/
inductive RawEntry where
  | mk (name : String) (meta : Except String FsMeta) (children : List RawEntry)
deriving Repr

def RawEntry.name : RawEntry → String
  | RawEntry.mk n _ _ => n

def RawEntry.meta : RawEntry → Except String FsMeta
  | RawEntry.mk _ m _ => m

mutual

/-- One iteration of the `files.map` body of `listFiles`: build the
`FileItem` (recursing into an expanded directory), or — when metadata
retrieval throws — catch, log via `onError`, and yield `null`. -/
def listEntry (lc : String → String → Int) (es : String → Bool)
    (path : String) (level : Nat) : RawEntry → Option FileItem × List String
  | RawEntry.mk name meta children =>
    match meta with
    | Except.error err => (none, [err])
    | Except.ok m =>
      let fullpath := pathJoin path name
      let sub :=
        if es fullpath then
          let r := listFiles lc es fullpath (level + 1) children
          (some r.1, r.2)
        else ((none : Option (List FileItem)), ([] : List String))
      (some (FileItem.mk name fullpath level m.directory
              (!m.writable && m.readable) m.executable m.readable m.writable
              (name.startsWith ".") sub.1),
       sub.2)
termination_by e => 3 * sizeOf e
decreasing_by all_goals simp_wf <;> omega

/-- The `Promise.all(files.map ...)` of `listFiles`, collecting the per-entry
results and the `onError` diagnostics. -/
def listEntries (lc : String → String → Int) (es : String → Bool)
    (path : String) (level : Nat) :
    List RawEntry → List (Option FileItem) × List String
  | [] => ([], [])
  | e :: rest =>
    let r1 := listEntry lc es path level e
    let r2 := listEntries lc es path level rest
    (r1.1 :: r2.1, r1.2 ++ r2.2)
termination_by l => 3 * sizeOf l + 1
decreasing_by all_goals simp_wf <;> omega

/-- Model of `listFiles`: list the entries, drop the `null` results of failed entries,
and sort.  Also returns the `onError` diagnostic log. -/
def listFiles (lc : String → String → Int) (es : String → Bool)
    (path : String) (level : Nat) (entries : List RawEntry) :
    List FileItem × List String :=
  let r := listEntries lc es path level entries
  (sortFiles lc (r.1.filterMap id), r.2)
termination_by 3 * sizeOf entries + 2
decreasing_by all_goals simp_wf <;> omega

end

/-- The clipboard-bearing part of the legacy `FileSource` state. -/
structure FileSourceState where
  root : String
  copyItems : List FileItemRef
  cutItems : List FileItemRef
deriving DecidableEq, Repr

/-- Model of `FileSource.loadItems`: clear `copyItems` and `cutItems`, then list the
root when it is expanded (else produce no items).  Returns the new source
state, the loaded items, and the listing diagnostics. -/
def loadItems (lc : String → String → Int) (es : String → Bool)
    (st : FileSourceState) (rootEntries : List RawEntry) :
    FileSourceState × List FileItem × List String :=
  let st' := { st with copyItems := [], cutItems := [] }
  if es st.root then
    let r := listFiles lc es st.root 1 rootEntries
    (st', r.1, r.2)
  else
    (st', [], [])

end CocExplorer

namespace CocExplorer

/-! ## The draw pass (`FileSource.draw` / `drawSubDirectory`)

`drawSubDirectory(items)` first resets `isFirstInLevel` / `isLastInLevel` on
every sibling, filters out hidden items unless `showHiddenFiles`, assigns
`isFirstInLevel` to `filteredItems[0]` and `isLastInLevel` to
`filteredItems[length-1]`, then emits one row per filtered item and recurses
into its children when it is expanded and loaded.

The embedding renders into a tree of `Rendered` values: one per emitted row,
carrying the flags the draw pass assigned and the rows of the item's drawn
subtree; the flat surface row sequence is its pre-order flattening. -/

/-- One drawn row: the item, the two per-draw flags, and the drawn rows of
its (filtered) children. -/
inductive Rendered where
  | mk (node : FileItem) (isFirstInLevel isLastInLevel : Bool)
      (children : List Rendered)

def Rendered.node : Rendered → FileItem
  | Rendered.mk n _ _ _ => n

def Rendered.isFirstInLevel : Rendered → Bool
  | Rendered.mk _ f _ _ => f

def Rendered.isLastInLevel : Rendered → Bool
  | Rendered.mk _ _ l _ => l

def Rendered.children : Rendered → List Rendered
  | Rendered.mk _ _ _ cs => cs

/-- Filtering a list does not increase its `sizeOf`. -/
theorem sizeOf_filter_le {α : Type} [SizeOf α] (p : α → Bool) (l : List α) :
    sizeOf (l.filter p) ≤ sizeOf l := by
  induction l with
  | nil => simp
  | cons x xs ih =>
    by_cases h : p x <;> simp [List.filter_cons, h] <;> omega

mutual

/-- The `for (const item of filteredItems)` loop of `drawSubDirectory`,
running over the already-filtered sibling list: the first iteration's item
carries `isFirstInLevel` (the `first` argument starts out `true`), the last
iteration's item carries `isLastInLevel`, and an item that is expanded with
loaded children has its sub-directory drawn beneath it. -/
def renderFiltered (es : String → Bool) (sh : Bool) :
    List FileItem → Bool → List Rendered
  | [], _ => []
  | FileItem.mk n fp lv d ro ex rd wr hid ch :: xs, first =>
    Rendered.mk (FileItem.mk n fp lv d ro ex rd wr hid ch) first xs.isEmpty
      (match ch with
       | some cs => if es fp then renderList es sh cs else []
       | none => []) :: renderFiltered es sh xs false
termination_by l _ => 2 * sizeOf l
decreasing_by all_goals simp_wf <;> omega

/-- Model of `drawSubDirectory`: filter out hidden siblings unless `showHiddenFiles`,
then draw the filtered list with positional first/last flags. -/
def renderList (es : String → Bool) (sh : Bool) (items : List FileItem) :
    List Rendered :=
  renderFiltered es sh
    (if sh then items else items.filter (fun it => !it.hidden)) true
termination_by 2 * sizeOf items + 1
decreasing_by
  simp_wf
  have h := sizeOf_filter_le (fun it : FileItem => !it.hidden) items
  split <;> omega

end

/-- Model of `FileSource.draw`: the root row is emitted unconditionally (not part of
any sibling list); the item rows are drawn only when the root is expanded. -/
def draw (es : String → Bool) (sh : Bool) (root : String)
    (items : List FileItem) : List Rendered :=
  if es root then renderList es sh items else []

end CocExplorer

namespace CocExplorer

/-! ## Supporting lemmas -/

/-- Membership in a JS-set `add`. -/
theorem mem_setAdd {β : Type} [DecidableEq β] (s : List β) (a x : β) :
    x ∈ setAdd s a ↔ x ∈ s ∨ x = a := by
  unfold setAdd
  split
  · rename_i h
    constructor
    · exact Or.inl
    · rintro (hx | rfl)
      · exact hx
      · exact h
  · simp

/-- Membership after folding JS-set `add` over a selection. -/
theorem mem_foldl_setAdd {β : Type} [DecidableEq β] (S : List β)
    (init : List β) (x : β) :
    x ∈ S.foldl setAdd init ↔ x ∈ init ∨ x ∈ S := by
  induction S generalizing init with
  | nil => simp
  | cons a as ih =>
    simp only [List.foldl_cons, ih, mem_setAdd, List.mem_cons]
    tauto

/-! ## C2 — clipboard exclusivity -/

/-- C2: after `copyFile(S, 'replace')` the cut set is empty and the copy set
has exactly the members of `S`; `cutFile` in `'toggle'` (or `'append'`) mode
never changes the copy set, so any node of the copy set — in particular one
just copied — is still in the copy set after `cutFile([n], 'toggle')`. -/
theorem copyReplace_then_cutToggle_keeps_copy_set (st : ClipboardState)
    (S : List FileNode) (n : FileNode) :
    ((copyFile st S (some CopyOrCutFileType.replace)).cutNodes = []
      ∧ (∀ x, x ∈ (copyFile st S (some CopyOrCutFileType.replace)).copiedNodes
          ↔ x ∈ S))
    ∧ (∀ st2 l,
        (cutFile st2 l (some CopyOrCutFileType.toggle)).copiedNodes
            = st2.copiedNodes
        ∧ (cutFile st2 l (some CopyOrCutFileType.append)).copiedNodes
            = st2.copiedNodes)
    ∧ (n ∈ (copyFile st S (some CopyOrCutFileType.replace)).copiedNodes →
        n ∈ (cutFile (copyFile st S (some CopyOrCutFileType.replace)) [n]
              (some CopyOrCutFileType.toggle)).copiedNodes) := by
  refine ⟨⟨rfl, ?_⟩, fun st2 l => ⟨rfl, rfl⟩, fun h => h⟩
  intro x
  simpa using mem_foldl_setAdd S [] x

/-- Closed instance of the C2 theorem: the node copied under `'replace'`
survives a subsequent `cutFile([n], 'toggle')`. -/
theorem copyReplace_then_cutToggle_keeps_copy_set_witness :
    (⟨1, "/a/b"⟩ : FileNode) ∈
      (cutFile (copyFile ⟨[], []⟩ [⟨1, "/a/b"⟩] (some CopyOrCutFileType.replace))
        [⟨1, "/a/b"⟩] (some CopyOrCutFileType.toggle)).copiedNodes :=
  (copyReplace_then_cutToggle_keeps_copy_set ⟨[], []⟩ [⟨1, "/a/b"⟩]
    ⟨1, "/a/b"⟩).2.2 (by decide)

/-! ## C3 — `pasteFile` default mode

The action's declared argument metadata says `default: clear`, but the
handler reads `const type = (args[0] ?? 'keepCopy')`: invoked with no mode
argument it pastes and *keeps* the copy set.  The claim (and the action's own
argument description) say the default is `'clear'`. -/

/-- C3 (code-bug evidence): `pasteFile` with no mode argument performs the
copy, clears the cut set, but leaves the copy set intact — the default is
`'keepCopy'`, not the documented `'clear'` (which does empty the copy set). -/
theorem pasteFile_default_is_keepCopy :
    (pasteFile ⟨[⟨1, "/s/a"⟩], []⟩ "/t" none).ops = [FsOp.copy "/s/a" "/t/a"]
    ∧ (pasteFile ⟨[⟨1, "/s/a"⟩], []⟩ "/t" none).copiedNodes = [⟨1, "/s/a"⟩]
    ∧ (pasteFile ⟨[⟨1, "/s/a"⟩], []⟩ "/t" none).cutNodes = []
    ∧ (pasteFile ⟨[⟨1, "/s/a"⟩], []⟩ "/t"
        (some PasteFileType.clear)).copiedNodes = [] := by
  decide

/-! ## C1 — the batch conflict guard of the legacy `pasteFile`

`checkSameFilename` never returns its `Promise.all`, so the guard's
rejection is only routed to `onError` and `await checkSameFilename(...)`
resumes immediately: the copy mutations run even though a planned target
already exists. -/

/-- C1 (code-bug evidence): pasting a single copied item whose target already
exists logs the guard conflict, yet still performs the copy mutation — the
batch is not blocked by the failed guard check. -/
theorem legacyPasteFile_mutates_despite_conflict :
    (legacyPasteFile (fun p => p == "/t/a.txt")
        [⟨"/s/a.txt", "a.txt", false, some "/s"⟩] [] "/t").errorLog
      = ["Target file or directory /t/a.txt already exists"]
    ∧ (legacyPasteFile (fun p => p == "/t/a.txt")
        [⟨"/s/a.txt", "a.txt", false, some "/s"⟩] [] "/t").ops
      = [FsOp.copy "/s/a.txt" "/t/a.txt"] := by
  decide

/-! ## C4 — `addFile` on a pre-existing target -/

/-- C4: when the planned target of `addFile` already exists, the action
throws the conflict error from `guardTargetPath` before any mutation: the
returned value is the error, so the mutation log (`fsMkdir` + `fsTouch`,
produced only on the success path) is never emitted. -/
theorem addFile_conflict_error_no_mutation (fs es : String → Bool)
    (root : String) (item : Option FileItemRef) (filename : String)
    (hlen : filename.length ≠ 0)
    (hexists : fs (pathJoin (getPutTargetDir es root item) filename) = true) :
    addFile fs es root item filename =
      Except.error ("Target file or directory "
        ++ pathJoin (getPutTargetDir es root item) filename
        ++ " already exists") := by
  unfold addFile guardTargetPath
  simp [hlen, hexists]

/-- Closed instance of the legacy-addFile lemma: `addFile("x.txt")` with
`x.txt` already present in the target directory fails with the conflict
error. -/
theorem addFile_conflict_error_no_mutation_witness :
    addFile (fun p => p == "/root/x.txt") (fun _ => false) "/root" none
        "x.txt" =
      Except.error ("Target file or directory "
        ++ pathJoin (getPutTargetDir (fun _ => false) "/root" none) "x.txt"
        ++ " already exists") :=
  addFile_conflict_error_no_mutation (fun p => p == "/root/x.txt")
    (fun _ => false) "/root" none "x.txt" (by decide) (by decide)

/-- C4 counterexample: in the action-module `addFile`, invoking
`addFile("x.txt")` with `x.txt` already present in the target directory does
not fail with a conflict error — the pre-existing target is escalated to the
overwrite prompt, and when the user confirms the overwrite the action
performs `fsTouch` on the existing target, a filesystem mutation the claim
rules out. -/
theorem addFileAction_existing_target_confirmed_touch :
    addFileAction (fun p => p == "/root/x.txt")
        (fun _ => OverwriteChoice.confirm) "/root" "x.txt" =
      [FsOp.touch "/root/x.txt"] := by
  decide

/-- C4, amended: the legacy `file-source.ts` `addFile` rejects a
pre-existing target outright — it fails with the conflict error and performs
no `fsMkdir` and no `fsTouch` — while the action-module `addFile` routes the
pre-existing target through the `overwritePrompt` collaborator: it raises no
conflict error, and it performs no mutation unless the user explicitly
confirms the overwrite, in which case exactly the `fsTouch` of the confirmed
target runs. -/
theorem addFile_conflict_behavior (fs es : String → Bool) (root : String)
    (item : Option FileItemRef) (filename : String)
    (dec : String → OverwriteChoice) (dir : String)
    (hlen : filename.length ≠ 0)
    (hsep : endsWithPathSep filename = false)
    (hexL : fs (pathJoin (getPutTargetDir es root item) filename) = true)
    (hexN : fs (pathJoin dir filename) = true) :
    addFile fs es root item filename =
      Except.error ("Target file or directory "
        ++ pathJoin (getPutTargetDir es root item) filename
        ++ " already exists")
    ∧ (dec (pathJoin dir filename) = OverwriteChoice.skip →
        addFileAction fs dec dir filename = [])
    ∧ (dec (pathJoin dir filename) = OverwriteChoice.abortAll →
        addFileAction fs dec dir filename = [])
    ∧ (dec (pathJoin dir filename) = OverwriteChoice.confirm →
        addFileAction fs dec dir filename =
          [FsOp.touch (pathJoin dir filename)]) := by
  refine ⟨addFile_conflict_error_no_mutation fs es root item filename
    hlen hexL, ?_, ?_, ?_⟩ <;>
    intro hdec <;>
    simp [addFileAction, hlen, hsep, overwritePrompt, hexN, hdec]

/-- Closed instance of the amended C4 theorem: with `/root/x.txt` already
existing, the legacy `addFile` fails with the conflict error, and the
action-module `addFile` under a user who skips the overwrite performs no
mutation. -/
theorem addFile_conflict_behavior_witness :
    addFile (fun p => p == "/root/x.txt") (fun _ => false) "/root" none
        "x.txt" =
      Except.error ("Target file or directory "
        ++ pathJoin (getPutTargetDir (fun _ => false) "/root" none) "x.txt"
        ++ " already exists")
    ∧ addFileAction (fun p => p == "/root/x.txt")
        (fun _ => OverwriteChoice.skip) "/root" "x.txt" = [] :=
  ⟨(addFile_conflict_behavior (fun p => p == "/root/x.txt") (fun _ => false)
      "/root" none "x.txt" (fun _ => OverwriteChoice.skip) "/root"
      (by decide) (by decide) (by decide) (by decide)).1,
    (addFile_conflict_behavior (fun p => p == "/root/x.txt") (fun _ => false)
      "/root" none "x.txt" (fun _ => OverwriteChoice.skip) "/root"
      (by decide) (by decide) (by decide) (by decide)).2.1 rfl⟩

/-! ## C5 — debounce coalescing -/

/-- C5: with delay 200 and calls at t=0, t=100, t=150, the t=0 call is
superseded (its promise resolved with the no-op value, not rejected) at
t=100, the t=100 call is superseded at t=150, and only the t=150 call
executes, its result resolving at t=350. -/
theorem debounce_coalescing_timeline :
    debounceRun 200 [0, 100, 150] =
      [DebounceOutcome.superseded 100, DebounceOutcome.superseded 150,
        DebounceOutcome.executed 350] := by
  decide

/-! ## C10 — `loadItems` empties the clipboard -/

/-- C10: every `FileSource.loadItems` call clears both `copyItems` and
`cutItems` before listing, whether or not the root is expanded — so the
clipboard never survives a model reload. -/
theorem loadItems_clears_clipboard (lc : String → String → Int)
    (es : String → Bool) (st : FileSourceState)
    (rootEntries : List RawEntry) :
    (loadItems lc es st rootEntries).1.copyItems = []
    ∧ (loadItems lc es st rootEntries).1.cutItems = [] := by
  unfold loadItems
  split <;> exact ⟨rfl, rfl⟩

/-! ## C6 — the locator -/

/-- The JS `findIndex` predicate of `currentSourceIndex`. -/
def inRange {α : Type} (lineIndex : Nat) (s : SourceView α) : Bool :=
  decide (s.startLineIndex ≤ lineIndex) && decide (lineIndex < s.endLineIndex)

theorem currentSourceIndex_eq_findIdx {α : Type}
    (sources : List (SourceView α)) (lineIndex : Nat) :
    currentSourceIndex sources lineIndex =
      sources.findIdx? (inRange lineIndex) := rfl

/-- A head source whose range does not contain the line is skipped. -/
theorem currentNode_cons_of_not_inRange {α : Type} (x : SourceView α)
    (xs : List (SourceView α)) (r : Nat)
    (h : inRange (r - 1) x = false) :
    currentNode (x :: xs) r = currentNode xs r := by
  unfold currentNode refreshLineIndex
  rw [currentSourceIndex_eq_findIdx, currentSourceIndex_eq_findIdx]
  rw [List.findIdx?_cons, h]
  simp only [Bool.false_eq_true, if_false, List.findIdx?_succ]
  cases hfi : List.findIdx? (inRange (r - 1)) xs with
  | none => simp
  | some j => simp [List.get?_cons_succ]

/-- A head source whose range contains the line is selected, and the node is
looked up at the line's offset into its flattened sequence. -/
theorem currentNode_cons_of_inRange {α : Type} (x : SourceView α)
    (xs : List (SourceView α)) (r : Nat)
    (h : inRange (r - 1) x = true) :
    currentNode (x :: xs) r =
      x.flattenedNodes.get? (r - 1 - x.startLineIndex) := by
  unfold currentNode refreshLineIndex
  rw [currentSourceIndex_eq_findIdx, List.findIdx?_cons, h]
  simp

/-- C6: the locator converts the 1-indexed cursor row `r` to the 0-indexed
line `l = r - 1`; when no source range contains `l` it returns `undefined`;
when a source's half-open `[startLineIndex, endLineIndex)` range contains `l`
(ranges being sorted and disjoint, so the containing source is unique), it
returns the element of that source's flattened sequence at index
`l - startLineIndex` — `undefined` when that index is out of bounds. -/
theorem locator_currentNode_spec {α : Type} (sources : List (SourceView α))
    (r : Nat)
    (hdisj : sources.Pairwise (fun s t => s.endLineIndex ≤ t.startLineIndex)) :
    refreshLineIndex r = r - 1
    ∧ ((∀ s ∈ sources, ¬(s.startLineIndex ≤ r - 1 ∧ r - 1 < s.endLineIndex)) →
        currentNode sources r = none)
    ∧ (∀ s ∈ sources, s.startLineIndex ≤ r - 1 → r - 1 < s.endLineIndex →
        currentNode sources r =
          s.flattenedNodes.get? (r - 1 - s.startLineIndex))
    ∧ (∀ s ∈ sources, s.startLineIndex ≤ r - 1 → r - 1 < s.endLineIndex →
        s.flattenedNodes.length ≤ r - 1 - s.startLineIndex →
        currentNode sources r = none) := by
  have hnone :
      (∀ s ∈ sources, ¬(s.startLineIndex ≤ r - 1 ∧ r - 1 < s.endLineIndex)) →
        currentNode sources r = none := by
    intro h
    unfold currentNode refreshLineIndex
    rw [currentSourceIndex_eq_findIdx]
    have : sources.findIdx? (inRange (r - 1)) = none := by
      rw [List.findIdx?_eq_none_iff]
      intro s hs
      have := h s hs
      unfold inRange
      simp only [Bool.and_eq_false_iff, decide_eq_false_iff_not]
      tauto
    rw [this]
  have hfound :
      ∀ (l : List (SourceView α)),
        l.Pairwise (fun s t => s.endLineIndex ≤ t.startLineIndex) →
        ∀ s ∈ l, s.startLineIndex ≤ r - 1 → r - 1 < s.endLineIndex →
          currentNode l r =
            s.flattenedNodes.get? (r - 1 - s.startLineIndex) := by
    intro l
    induction l with
    | nil => intro _ s hs; simp at hs
    | cons x xs ih =>
      intro hd s hs h1 h2
      rcases List.mem_cons.mp hs with rfl | hs2
      · exact currentNode_cons_of_inRange s xs r
          (by unfold inRange; simp [h1, h2])
      · have hx : x.endLineIndex ≤ s.startLineIndex :=
          (List.pairwise_cons.mp hd).1 s hs2
        have hxfalse : inRange (r - 1) x = false := by
          unfold inRange
          simp only [Bool.and_eq_false_iff, decide_eq_false_iff_not]
          right
          omega
        rw [currentNode_cons_of_not_inRange x xs r hxfalse]
        exact ih (List.pairwise_cons.mp hd).2 s hs2 h1 h2
  refine ⟨rfl, hnone, hfound sources hdisj, ?_⟩
  intro s hs h1 h2 hlen
  rw [hfound sources hdisj s hs h1 h2]
  exact List.get?_eq_none.mpr hlen

/-! ## C7 — hidden filtering precedes first/last flag assignment -/

theorem one_le_sizeOf_list {α : Type} [SizeOf α] (l : List α) :
    1 ≤ sizeOf l := by
  cases l with
  | nil => simp
  | cons x xs => simp; omega

theorem children_sizeOf_lt (x : FileItem) (cs : List FileItem)
    (h : x.children = some cs) : sizeOf cs < sizeOf x := by
  cases x with
  | mk n fp lv d ro ex rd wr hid ch =>
    simp only [FileItem.children] at h
    subst h
    simp
    omega

/-- Every row drawn for a sibling list comes from a member of that list, and
its sub-rows are either empty or the drawn rows of that member's loaded
children. -/
theorem mem_renderFiltered (es : String → Bool) (sh : Bool) :
    ∀ (l : List FileItem) (b : Bool) (r : Rendered),
      r ∈ renderFiltered es sh l b →
      ∃ x ∈ l, r.node = x ∧
        (r.children = []
          ∨ ∃ cs, x.children = some cs ∧ r.children = renderList es sh cs) := by
  intro l
  induction l with
  | nil => intro b r hr; simp [renderFiltered] at hr
  | cons x xs ih =>
    intro b r hr
    cases x with
    | mk n fp lv d ro ex rd wr hid ch =>
      cases ch with
      | none =>
        simp only [renderFiltered] at hr
        rcases List.mem_cons.mp hr with rfl | hr2
        · exact ⟨FileItem.mk n fp lv d ro ex rd wr hid none,
            List.mem_cons_self _ _, rfl, Or.inl rfl⟩
        · obtain ⟨y, hy, hnode, hch⟩ := ih false r hr2
          exact ⟨y, List.mem_cons_of_mem _ hy, hnode, hch⟩
      | some cs =>
        simp only [renderFiltered] at hr
        rcases List.mem_cons.mp hr with rfl | hr2
        · refine ⟨FileItem.mk n fp lv d ro ex rd wr hid (some cs),
            List.mem_cons_self _ _, rfl, ?_⟩
          by_cases hes : es fp
          · exact Or.inr ⟨cs, rfl, by simp [Rendered.children, hes]⟩
          · exact Or.inl (by simp [Rendered.children, hes])
        · obtain ⟨y, hy, hnode, hch⟩ := ih false r hr2
          exact ⟨y, List.mem_cons_of_mem _ hy, hnode, hch⟩

theorem renderFiltered_length (es : String → Bool) (sh : Bool) :
    ∀ (l : List FileItem) (b : Bool),
      (renderFiltered es sh l b).length = l.length := by
  intro l
  induction l with
  | nil => intro b; simp [renderFiltered]
  | cons x xs ih =>
    intro b
    cases x with
    | mk n fp lv d ro ex rd wr hid ch =>
      cases ch <;> simp [renderFiltered, ih]

/-- The flag pattern of the loop over one (already filtered) sibling list:
the row at position `i` carries `isFirstInLevel` exactly when the loop
started with the first-flag set and `i = 0`, and carries `isLastInLevel`
exactly when `i` is the last position. -/
theorem renderFiltered_flags (es : String → Bool) (sh : Bool) :
    ∀ (l : List FileItem) (b : Bool) (i : Nat) (r : Rendered),
      (renderFiltered es sh l b).get? i = some r →
      r.isFirstInLevel = (b && decide (i = 0))
      ∧ r.isLastInLevel = decide (i = l.length - 1) := by
  intro l
  induction l with
  | nil => intro b i r hr; simp [renderFiltered] at hr
  | cons x xs ih =>
    intro b i r hr
    cases x with
    | mk n fp lv d ro ex rd wr hid ch =>
      cases ch <;>
        cases i with
        | zero =>
          simp only [renderFiltered, List.get?_cons_zero,
            Option.some.injEq] at hr
          subst hr
          refine ⟨by simp [Rendered.isFirstInLevel], ?_⟩
          cases xs <;> simp [Rendered.isLastInLevel]
        | succ j =>
          simp only [renderFiltered, List.get?_cons_succ] at hr
          have hlt : j < xs.length := by
            by_contra hge
            rw [List.get?_eq_none.mpr
              (by rw [renderFiltered_length]; omega)] at hr
            exact Option.noConfusion hr
          obtain ⟨h1, h2⟩ := ih false j r hr
          refine ⟨by rw [h1]; simp, ?_⟩
          rw [h2]
          simp only [List.length_cons]
          exact decide_eq_decide.mpr (by omega)

/-- Positional first/last flags: within one rendered sibling list, exactly
the row at position 0 has `isFirstInLevel` and exactly the row at the final
position has `isLastInLevel`. -/
def positionalFlags (ls : List Rendered) : Prop :=
  ∀ (i : Nat) (r : Rendered), ls.get? i = some r →
    r.isFirstInLevel = decide (i = 0)
    ∧ r.isLastInLevel = decide (i = ls.length - 1)

theorem positionalFlags_renderList (es : String → Bool) (sh : Bool)
    (items : List FileItem) : positionalFlags (renderList es sh items) := by
  intro i r hr
  unfold renderList at hr
  obtain ⟨h1, h2⟩ := renderFiltered_flags es sh _ true i r hr
  refine ⟨by simpa using h1, ?_⟩
  rw [h2]
  unfold renderList
  rw [renderFiltered_length]

/-- Hereditarily positional flags: every sibling list in the rendered tree —
the top one and every rendered child list — has the positional flag
pattern. -/
inductive AllSiblingFlagsOk : List Rendered → Prop where
  | intro (ls : List Rendered) (hpos : positionalFlags ls)
      (hch : ∀ r ∈ ls, AllSiblingFlagsOk r.children) : AllSiblingFlagsOk ls

/-- Hereditarily visible: every node in the rendered tree has
`hidden = false`. -/
inductive AllVisible : List Rendered → Prop where
  | intro (ls : List Rendered) (hvis : ∀ r ∈ ls, r.node.hidden = false)
      (hch : ∀ r ∈ ls, AllVisible r.children) : AllVisible ls

theorem allSiblingFlagsOk_nil : AllSiblingFlagsOk [] :=
  AllSiblingFlagsOk.intro [] (fun i r h => by simp at h) (fun r h => by simp at h)

theorem allVisible_nil : AllVisible [] :=
  AllVisible.intro [] (fun r h => by simp at h) (fun r h => by simp at h)

theorem filtered_sizeOf_le (sh : Bool) (items : List FileItem) :
    sizeOf (if sh then items else items.filter (fun it => !it.hidden))
      ≤ sizeOf items := by
  split
  · exact le_refl _
  · exact sizeOf_filter_le _ _

theorem allSiblingFlagsOk_renderList (es : String → Bool) (sh : Bool) :
    ∀ (n : Nat) (items : List FileItem), sizeOf items ≤ n →
      AllSiblingFlagsOk (renderList es sh items) := by
  intro n
  induction n with
  | zero =>
    intro items h
    exact absurd h (by have := one_le_sizeOf_list items; omega)
  | succ n ih =>
    intro items hn
    refine AllSiblingFlagsOk.intro _ (positionalFlags_renderList es sh items) ?_
    intro r hr
    unfold renderList at hr
    obtain ⟨x, hx, hnode, hch⟩ := mem_renderFiltered es sh _ true r hr
    rcases hch with hnil | ⟨cs, hcs, hre⟩
    · rw [hnil]; exact allSiblingFlagsOk_nil
    · rw [hre]
      apply ih
      have h1 : sizeOf cs < sizeOf x := children_sizeOf_lt x cs hcs
      have h2 := List.sizeOf_lt_of_mem hx
      have h3 := filtered_sizeOf_le sh items
      omega

theorem allVisible_renderList (es : String → Bool) :
    ∀ (n : Nat) (items : List FileItem), sizeOf items ≤ n →
      AllVisible (renderList es false items) := by
  intro n
  induction n with
  | zero =>
    intro items h
    exact absurd h (by have := one_le_sizeOf_list items; omega)
  | succ n ih =>
    intro items hn
    refine AllVisible.intro _ ?_ ?_
    · intro r hr
      unfold renderList at hr
      obtain ⟨x, hx, hnode, _⟩ := mem_renderFiltered es false _ true r hr
      rw [hnode]
      simp only [Bool.false_eq_true, if_false] at hx
      simpa using List.of_mem_filter hx
    · intro r hr
      unfold renderList at hr
      obtain ⟨x, hx, hnode, hch⟩ := mem_renderFiltered es false _ true r hr
      rcases hch with hnil | ⟨cs, hcs, hre⟩
      · rw [hnil]; exact allVisible_nil
      · rw [hre]
        apply ih
        have h1 : sizeOf cs < sizeOf x := children_sizeOf_lt x cs hcs
        have h2 := List.sizeOf_lt_of_mem hx
        have h3 := filtered_sizeOf_le false items
        omega

/-- C7: in a draw pass with hidden files not shown, every rendered row's node
has `hidden = false` — a hidden sibling is excluded before flag assignment
and so is neither rendered nor flagged — and in every rendered sibling list
(at every depth) exactly the first remaining row carries
`isFirstInLevel = true` and exactly the last remaining row carries
`isLastInLevel = true`. -/
theorem draw_hidden_filter_and_level_flags (es : String → Bool)
    (items : List FileItem) :
    AllVisible (renderList es false items)
    ∧ ∀ sh : Bool, AllSiblingFlagsOk (renderList es sh items) :=
  ⟨allVisible_renderList es (sizeOf items) items (le_refl _),
    fun sh => allSiblingFlagsOk_renderList es sh (sizeOf items) items (le_refl _)⟩

/-! ## C8 — `sortFiles` ordering and stability

`localeCompare` is a locale-dependent total preorder on strings; the claim is
proved for every comparison function `lc` that is transitive and total on the
"at most 0" side, which every comparator admissible for `Array.sort` (and
`localeCompare` in particular) satisfies. -/

theorem fileLE_trans (lc : String → String → Int)
    (hTrans : ∀ a b c, lc a b ≤ 0 → lc b c ≤ 0 → lc a c ≤ 0) :
    ∀ a b c : FileItem, fileLE lc a b = true → fileLE lc b c = true →
      fileLE lc a c = true := by
  intro a b c hab hbc
  unfold fileLE sortFilesCmp at *
  cases ha : a.directory <;> cases hb : b.directory <;> cases hc : c.directory <;>
    simp_all [decide_eq_true_iff] <;>
    first
      | exact hTrans _ _ _ hab hbc
      | omega

theorem fileLE_total (lc : String → String → Int)
    (hTotal : ∀ a b, lc a b ≤ 0 ∨ lc b a ≤ 0) :
    ∀ a b : FileItem, (fileLE lc a b || fileLE lc b a) = true := by
  intro a b
  unfold fileLE sortFilesCmp
  cases ha : a.directory <;> cases hb : b.directory <;>
    simp_all [decide_eq_true_iff] <;>
    first
      | (rcases hTotal a.name b.name with h | h <;> tauto)
      | omega

/-- C8: `sortFiles` returns a permutation of its input in which every
directory precedes every non-directory, entries of the same kind appear in
(case-aware, `localeCompare`) name order, and the sort is stable: two entries
whose comparator value is 0 keep their input order. -/
theorem sortFiles_spec (lc : String → String → Int)
    (hTrans : ∀ a b c, lc a b ≤ 0 → lc b c ≤ 0 → lc a c ≤ 0)
    (hTotal : ∀ a b, lc a b ≤ 0 ∨ lc b a ≤ 0) (files : List FileItem) :
    (sortFiles lc files).Perm files
    ∧ (sortFiles lc files).Pairwise (fun a b =>
        (b.directory = true → a.directory = true)
        ∧ (a.directory = b.directory → lc a.name b.name ≤ 0))
    ∧ (∀ a b : FileItem, sortFilesCmp lc a b = 0 → [a, b].Sublist files →
        [a, b].Sublist (sortFiles lc files)) := by
  refine ⟨List.mergeSort_perm files (fileLE lc), ?_, ?_⟩
  · have hs := @List.sorted_mergeSort FileItem (fileLE lc)
      (fileLE_trans lc hTrans) (fileLE_total lc hTotal) files
    refine hs.imp ?_
    intro a b hab
    unfold fileLE sortFilesCmp at hab
    rw [decide_eq_true_iff] at hab
    constructor
    · intro hbdir
      by_contra hadir
      simp only [Bool.not_eq_true] at hadir
      rw [hadir, hbdir] at hab
      simp at hab
    · intro heq
      rw [heq] at hab
      cases hb : b.directory <;> rw [hb] at hab <;> simpa using hab
  · intro a b hcmp hsub
    exact List.pair_sublist_mergeSort (fileLE_trans lc hTrans)
      (fileLE_total lc hTotal) (by unfold fileLE; rw [hcmp]; decide) hsub

/-- Closed instance of the C8 theorem at the constant comparison (all names
equal) on a two-element list. -/
theorem sortFiles_spec_witness :
    (sortFiles (fun _ _ => 0)
        [FileItem.mk "b" "/r/b" 1 false false false true true false none,
          FileItem.mk "a" "/r/a" 1 true false false true true false none]).Perm
      [FileItem.mk "b" "/r/b" 1 false false false true true false none,
        FileItem.mk "a" "/r/a" 1 true false false true true false none] :=
  (sortFiles_spec (fun _ _ => 0) (fun _ _ _ h _ => h)
    (fun _ _ => Or.inl (le_refl 0))
    [FileItem.mk "b" "/r/b" 1 false false false true true false none,
      FileItem.mk "a" "/r/a" 1 true false false true true false none]).1

/-! ## C9 — `listFiles` drops failing entries, keeps their siblings -/

/-- The items produced by one sibling listing carry exactly the names of the
entries whose metadata retrieval succeeded, in input order. -/
theorem listEntries_names (lc : String → String → Int) (es : String → Bool)
    (path : String) (level : Nat) (entries : List RawEntry) :
    (((listEntries lc es path level entries).1.filterMap id).map
        FileItem.name) =
      (entries.filter (fun e => e.meta.isOk)).map RawEntry.name := by
  induction entries with
  | nil => simp [listEntries]
  | cons e rest ih =>
    cases e with
    | mk name meta children =>
      cases meta with
      | error err =>
        simp [listEntries, listEntry, List.filter_cons, Except.isOk,
          Except.toBool, RawEntry.meta, ih]
      | ok m =>
        simp [listEntries, listEntry, List.filter_cons, Except.isOk,
          Except.toBool, RawEntry.meta, RawEntry.name, FileItem.name, ih]

/-- Every metadata-retrieval failure among the listed entries is logged. -/
theorem listEntries_logs (lc : String → String → Int) (es : String → Bool)
    (path : String) (level : Nat) (entries : List RawEntry) :
    ∀ e ∈ entries, ∀ err, e.meta = Except.error err →
      err ∈ (listEntries lc es path level entries).2 := by
  induction entries with
  | nil => intro e he; simp at he
  | cons x rest ih =>
    intro e he err herr
    rcases List.mem_cons.mp he with rfl | he2
    · cases e with
      | mk name meta children =>
        simp only [RawEntry.meta] at herr
        subst herr
        simp [listEntries, listEntry]
    · cases x with
      | mk name meta children =>
        have := ih e he2 err herr
        cases meta with
        | error e2 => simpa [listEntries, listEntry] using Or.inr this
        | ok m => simpa [listEntries, listEntry] using Or.inr this

/-- C9: a sibling whose metadata retrieval fails is dropped from the returned
list — the returned items are (up to the sort) exactly the successfully
retrieved entries — and its error is logged as a diagnostic; the listing
itself always returns (it is total), so one bad entry never aborts its
siblings. -/
theorem listFiles_drops_failing_entries (lc : String → String → Int)
    (es : String → Bool) (path : String) (level : Nat)
    (entries : List RawEntry) :
    (((listFiles lc es path level entries).1.map FileItem.name).Perm
        ((entries.filter (fun e => e.meta.isOk)).map RawEntry.name))
    ∧ (∀ e ∈ entries, ∀ err, e.meta = Except.error err →
        err ∈ (listFiles lc es path level entries).2) := by
  constructor
  · have hperm :
        (listFiles lc es path level entries).1.Perm
          ((listEntries lc es path level entries).1.filterMap id) := by
      simp only [listFiles]
      exact List.mergeSort_perm _ _
    calc ((listFiles lc es path level entries).1.map FileItem.name).Perm
          (((listEntries lc es path level entries).1.filterMap id).map
            FileItem.name) := hperm.map _
      _ = (entries.filter (fun e => e.meta.isOk)).map RawEntry.name :=
          listEntries_names lc es path level entries
  · intro e he err herr
    have : (listFiles lc es path level entries).2 =
        (listEntries lc es path level entries).2 := by
      simp [listFiles]
    rw [this]
    exact listEntries_logs lc es path level entries e he err herr

/-- Closed instance of the C9 theorem: in a two-entry directory where the
second entry's `fsStat` throws, the thrown diagnostic is logged while the
first entry is still listed. -/
theorem listFiles_drops_failing_entries_witness :
    "boom" ∈
      (listFiles (fun _ _ => 0) (fun _ => false) "/r" 1
        [RawEntry.mk "a" (Except.ok ⟨false, false, true, true⟩) [],
          RawEntry.mk "bad" (Except.error "boom") []]).2 :=
  (listFiles_drops_failing_entries (fun _ _ => 0) (fun _ => false) "/r" 1
    [RawEntry.mk "a" (Except.ok ⟨false, false, true, true⟩) [],
      RawEntry.mk "bad" (Except.error "boom") []]).2
    (RawEntry.mk "bad" (Except.error "boom") []) (by simp) "boom" rfl

/-- Closed instance of the C6 theorem on a two-source surface: cursor row 3
is line 2, which falls in the second source's range `[2, 3)`, yielding the
node at offset 0 of its flattened sequence. -/
theorem locator_currentNode_spec_witness :
    currentNode [(⟨0, 2, [10, 11]⟩ : SourceView Nat), ⟨2, 3, [20]⟩] 3 =
      ([20] : List Nat).get? (3 - 1 - 2) :=
  (locator_currentNode_spec [(⟨0, 2, [10, 11]⟩ : SourceView Nat), ⟨2, 3, [20]⟩]
    3 (by simp)).2.2.1 ⟨2, 3, [20]⟩ (by simp) (by decide) (by decide)

end CocExplorer
